import Mathlib

/-!
Verification development for the `got` content-addressable object store.

The Go source is shallowly embedded: byte sequences are `List Nat` (each
element a byte value), the on-disk object store is an association list from
the derived `{hex[0:2]}/{hex[2:40]}` path to the stored bytes, and the zlib
codec (an external library to the program) is passed in as an abstract
compressor/decompressor pair.  SHA-1 is implemented concretely so that
addresses are computed exactly as `crypto/sha1` computes them.
-/

/-- Byte values (char codes) of a Lean string literal; used to transcribe the
Go string literals of the source. -/
def str2bytes (s : String) : List Nat :=
  s.data.map Char.toNat

/-- Little-endian decimal digit codes of a number, with explicit fuel (the
fuel always suffices when set to the number itself). -/
def digitsGo : Nat → Nat → List Nat
  | _, 0 => []
  | 0, _ + 1 => []
  | fuel + 1, n + 1 => ((n + 1) % 10 + 48) :: digitsGo fuel ((n + 1) / 10)

/-- Base-10 ASCII rendering of a natural number, as produced by Go's
`fmt.Sprintf("%d", n)`: no leading zeros, and `0` renders as `"0"`. -/
def decimalAscii (n : Nat) : List Nat :=
  if n = 0 then [48] else (digitsGo n n).reverse

/-- Numeric value of a big-endian list of ASCII decimal digit codes
(spec-side meaning of "rendered in base-10 ASCII"). -/
def decimalVal (ds : List Nat) : Nat :=
  ds.foldl (fun acc d => acc * 10 + (d - 48)) 0

/-- Lowercase hex digit code for a value below 16, as produced by
`encoding/hex`. -/
def hexDigitCode (n : Nat) : Nat :=
  if n < 10 then 48 + n else 87 + n

/-- Lowercase hex rendering of a byte list (char codes), as produced by
`hex.EncodeToString`. -/
def toHexBytes (l : List Nat) : List Nat :=
  l.flatMap (fun b => [hexDigitCode (b / 16), hexDigitCode (b % 16)])

/-- Value of one hex digit char code, accepting the digit sets accepted by
`hex.DecodeString` (0-9, a-f, A-F). -/
def hexVal (c : Nat) : Option Nat :=
  if 48 ≤ c ∧ c ≤ 57 then some (c - 48)
  else if 97 ≤ c ∧ c ≤ 102 then some (c - 87)
  else if 65 ≤ c ∧ c ≤ 70 then some (c - 55)
  else none

/-- Byte list decoded from hex char codes, as `hex.DecodeString`: fails on an
odd-length input or a non-hex digit. -/
def decodeHexPairs : List Nat → Option (List Nat)
  | [] => some []
  | c1 :: c2 :: rest =>
    match hexVal c1, hexVal c2, decodeHexPairs rest with
    | some x, some y, some bs => some ((x * 16 + y) :: bs)
    | _, _, _ => none
  | _ => none

/-- Big-endian bytes of a number, fixed width `k`. -/
def beBytes : Nat → Nat → List Nat
  | 0, _ => []
  | k + 1, n => beBytes k (n / 256) ++ [n % 256]

/-- Go's `<` on strings: lexicographic byte-wise strict order.  This is the
comparator passed to `sort.Slice` in `writeTree`. -/
def bytesLt : List Nat → List Nat → Bool
  | _, [] => false
  | [], _ :: _ => true
  | a :: as, b :: bs => if a < b then true else if b < a then false else bytesLt as bs

/-- Reflexive closure of `bytesLt`, the order `sort.Slice` establishes. -/
def bytesLe (x y : List Nat) : Bool :=
  ! bytesLt y x

/-- Split a byte list at the first occurrence of `b`, returning the part
before and the part after it; `none` when `b` is absent.  This models the
`bytes.IndexByte` + slice idiom of the source (`data[:idx]`, `data[idx+1:]`). -/
def splitAtByte (b : Nat) : List Nat → Option (List Nat × List Nat)
  | [] => none
  | x :: xs =>
    if x = b then some ([], xs)
    else
      match splitAtByte b xs with
      | none => none
      | some (pre, post) => some (x :: pre, post)

/-- Left-rotation of a 32-bit word. -/
def rotl (s x : Nat) : Nat :=
  ((x <<< s) ||| (x >>> (32 - s))) % 4294967296

/-- Big-endian 32-bit words of a byte list (groups of four). -/
def toWordsBE : List Nat → List Nat
  | a :: b :: c :: d :: rest => (((a * 256 + b) * 256 + c) * 256 + d) :: toWordsBE rest
  | _ => []

/-- SHA-1 message-schedule extension, keeping the words newest-first. -/
def extendRev : Nat → List Nat → List Nat
  | 0, acc => acc
  | n + 1, acc =>
    extendRev n
      (rotl 1 (acc.getD 2 0 ^^^ acc.getD 7 0 ^^^ acc.getD 13 0 ^^^ acc.getD 15 0) :: acc)

/-- SHA-1 round constant. -/
def sha1K (i : Nat) : Nat :=
  if i < 20 then 1518500249
  else if i < 40 then 1859775393
  else if i < 60 then 2400959708
  else 3395469782

/-- SHA-1 round function. -/
def sha1F (i b c d : Nat) : Nat :=
  if i < 20 then (b &&& c) ||| ((b ^^^ 4294967295) &&& d)
  else if i < 40 then b ^^^ c ^^^ d
  else if i < 60 then (b &&& c) ||| (b &&& d) ||| (c &&& d)
  else b ^^^ c ^^^ d

/-- One SHA-1 round on the five-word working state. -/
def sha1Step (i w : Nat) : Nat × Nat × Nat × Nat × Nat → Nat × Nat × Nat × Nat × Nat
  | (a, b, c, d, e) =>
    ((rotl 5 a + sha1F i b c d + e + sha1K i + w) % 4294967296, a, rotl 30 b, c, d)

/-- Run the SHA-1 rounds over the message schedule, starting at round `i`. -/
def sha1Rounds (i : Nat) (ws : List Nat) (st : Nat × Nat × Nat × Nat × Nat) :
    Nat × Nat × Nat × Nat × Nat :=
  match ws with
  | [] => st
  | w :: rest => sha1Rounds (i + 1) rest (sha1Step i w st)

/-- Process one 64-byte SHA-1 chunk. -/
def processChunk (h : Nat × Nat × Nat × Nat × Nat) (chunk : List Nat) :
    Nat × Nat × Nat × Nat × Nat :=
  let ws := (extendRev 64 (toWordsBE chunk).reverse).reverse
  let (h0, h1, h2, h3, h4) := h
  let (a, b, c, d, e) := sha1Rounds 0 ws h
  ((h0 + a) % 4294967296, (h1 + b) % 4294967296, (h2 + c) % 4294967296,
    (h3 + d) % 4294967296, (h4 + e) % 4294967296)

/-- Fuel-driven worker for `chunks64`; the fuel (one unit per consumed
leading byte) always suffices when set to the list length. -/
def chunksGo : Nat → List Nat → List (List Nat)
  | _, [] => []
  | 0, _ :: _ => []
  | fuel + 1, x :: xs => (x :: xs).take 64 :: chunksGo fuel (xs.drop 63)

/-- Split a byte list into 64-byte chunks. -/
def chunks64 (l : List Nat) : List (List Nat) :=
  chunksGo l.length l

/-- SHA-1 padding: append `0x80`, zeros to 56 mod 64, then the bit length as
eight big-endian bytes. -/
def sha1Pad (msg : List Nat) : List Nat :=
  msg ++ 128 :: List.replicate ((120 - (msg.length + 1) % 64) % 64) 0
    ++ beBytes 8 (8 * msg.length)

/-- SHA-1 digest (20 bytes) of a byte list, as computed by `crypto/sha1`. -/
def sha1 (msg : List Nat) : List Nat :=
  let (h0, h1, h2, h3, h4) :=
    (chunks64 (sha1Pad msg)).foldl processChunk
      (1732584193, 4023233417, 2562383102, 271733878, 3285377520)
  beBytes 4 h0 ++ beBytes 4 h1 ++ beBytes 4 h2 ++ beBytes 4 h3 ++ beBytes 4 h4

/-- Structured error values for the operations of the program; each
constructor corresponds to one `handleError`/returned-error site of the
source. -/
inductive GErr where
  | invalidHash
  | fileNotFound
  | zlibErr
  | invalidFormat
  | missingMode
  | missingNameTerm
  | incompleteHash
  | notDirectory
  | hexErr
deriving DecidableEq, Repr

/-- Decidable equality for `Except` results, so that concrete runs of the
embedded operations can be checked by evaluation. -/
instance {e a : Type} [DecidableEq e] [DecidableEq a] : DecidableEq (Except e a) :=
  fun x y =>
    match x, y with
    | .ok v, .ok w =>
      if h : v = w then isTrue (by rw [h]) else isFalse (by simp [h])
    | .error v, .error w =>
      if h : v = w then isTrue (by rw [h]) else isFalse (by simp [h])
    | .ok _, .error _ => isFalse (by simp)
    | .error _, .ok _ => isFalse (by simp)

/-- On-disk location of an object: the two leading hex characters (the
directory under `.git/objects`) and the remaining 38 (the file name). -/
abbrev ObjPath := List Nat × List Nat

/-- The filesystem substrate under the objects root, as a path-keyed
association list of file contents. -/
abbrev Store := List (ObjPath × List Nat)

/-- Bytes stored at a path, if any (`os.ReadFile`). -/
def findPath : Store → ObjPath → Option (List Nat)
  | [], _ => none
  | (q, v) :: rest, p => if q = p then some v else findPath rest p

/-- Store bytes at a path, replacing any previous content
(`os.MkdirAll` + `os.WriteFile`). -/
def insertPath (st : Store) (p : ObjPath) (v : List Nat) : Store :=
  (p, v) :: st.filter (fun e => decide (e.1 ≠ p))

/-- Path derived from a hash string: `{hex[0:2]}/{hex[2:40]}`
(`hash[:2]`, `hash[2:]` in the source). -/
def objectsPath (hash : List Nat) : ObjPath :=
  (hash.take 2, hash.drop 2)

/-- Object envelope built by `writeObject`:
`fmt.Sprintf("%s %d\x00", objectType, len(content))` followed by the
content. -/
def envelope (objectType content : List Nat) : List Nat :=
  objectType ++ 32 :: (decimalAscii content.length ++ 0 :: content)

/-- The `writeObject` function of the source: builds the envelope, hashes it,
compresses it (the zlib compressor is passed as an abstract parameter) and
stores it at the path derived from the hex address; returns the address. -/
def writeObject (compress : List Nat → List Nat) (objectType content : List Nat)
    (st : Store) : List Nat × Store :=
  let fullContent := envelope objectType content
  let hash := toHexBytes (sha1 fullContent)
  (hash, insertPath st (objectsPath hash) (compress fullContent))

/-- The `cat-file -p` path of the source: rejects a hash shorter than 40
characters, reads the file at the derived path, decompresses (the zlib
reader is passed as an abstract parameter), finds the first NUL and returns
everything after it. -/
def catFile (decompress : List Nat → Option (List Nat)) (st : Store)
    (hash : List Nat) : Except GErr (List Nat) :=
  if hash.length < 40 then .error .invalidHash
  else
    match findPath st (objectsPath hash) with
    | none => .error .fileNotFound
    | some b =>
      match decompress b with
      | none => .error .zlibErr
      | some content =>
        match splitAtByte 0 content with
        | none => .error .invalidFormat
        | some (_, payload) => .ok payload

/-- Modelled from the spec: the core `ReadObject(address) -> (kind, payload)`
entry point (spec section 4.3 and section 6).  The source's `cat-file` runs the same
pipeline but prints only the payload, leaving the kind extraction as
commented-out code; the spec's split of the envelope prefix at the first
space into kind and decimal length is modelled here. -/
def readObject (decompress : List Nat → Option (List Nat)) (st : Store)
    (hash : List Nat) : Except GErr (List Nat × List Nat) :=
  if hash.length < 40 then .error .invalidHash
  else
    match findPath st (objectsPath hash) with
    | none => .error .fileNotFound
    | some b =>
      match decompress b with
      | none => .error .zlibErr
      | some content =>
        match splitAtByte 0 content with
        | none => .error .invalidFormat
        | some (header, payload) =>
          match splitAtByte 32 header with
          | none => .error .invalidFormat
          | some (kind, _) => .ok (kind, payload)

/-- Tree entry as parsed by the `ls-tree` loop: mode, display type, hex hash
and name. -/
structure LsEntry where
  mode : List Nat
  type : List Nat
  hash : List Nat
  name : List Nat
deriving DecidableEq, Repr

/-- The `gitModes` map of the source; a missing key yields Go's zero value,
the empty string. -/
def gitModesLookup (m : List Nat) : List Nat :=
  if m = str2bytes "040000" then str2bytes "tree"
  else if m = str2bytes "100644" then str2bytes "blob"
  else if m = str2bytes "100755" then str2bytes "blob"
  else if m = str2bytes "120000" then str2bytes "blob"
  else if m = str2bytes "160000" then str2bytes "commit"
  else []

/-- Fuel-driven worker for the entry-parsing loop of `ls-tree`; the fuel
(one unit per leading byte of the remaining data) always suffices when set to
the data length, since every parsed entry consumes at least 22 bytes. -/
def parseGo : Nat → List Nat → Except GErr (List LsEntry)
  | _, [] => .ok []
  | 0, _ :: _ => .error .missingMode
  | fuel + 1, data =>
    match splitAtByte 32 data with
    | none => .error .missingMode
    | some (mode, rest1) =>
      match splitAtByte 0 rest1 with
      | none => .error .missingNameTerm
      | some (name, rest2) =>
        if rest2.length < 20 then .error .incompleteHash
        else
          match parseGo fuel (rest2.drop 20) with
          | .error e => .error e
          | .ok es =>
            .ok ({ mode := mode, type := gitModesLookup mode,
                   hash := toHexBytes (rest2.take 20), name := name } :: es)

/-- The entry-parsing loop of `ls-tree`: while bytes remain, split at the
first space (mode), then at the first NUL (name), then take 20 raw bytes as
the entry hash; each missing delimiter or short hash is a distinct error. -/
def parseTreeEntries (data : List Nat) : Except GErr (List LsEntry) :=
  parseGo data.length data

/-- Output line for one entry, as printed by the `ls-tree` output loop:
the name alone under `--name-only`, else mode, type, hash and name joined by
single spaces. -/
def renderEntry (nameOnly : Bool) (e : LsEntry) : List Nat :=
  if nameOnly then e.name
  else e.mode ++ 32 :: (e.type ++ 32 :: (e.hash ++ 32 :: e.name))

/-- The `ls-tree` command of the source, after argument parsing: rejects a
hash whose length is not 40, reads and decompresses the object, skips the
envelope header up to the first NUL, parses the entries and renders one line
per entry. -/
def lsTree (decompress : List Nat → Option (List Nat)) (st : Store)
    (nameOnly : Bool) (hash : List Nat) : Except GErr (List (List Nat)) :=
  if hash.length ≠ 40 then .error .invalidHash
  else
    match findPath st (objectsPath hash) with
    | none => .error .fileNotFound
    | some b =>
      match decompress b with
      | none => .error .zlibErr
      | some content =>
        match splitAtByte 0 content with
        | none => .error .invalidFormat
        | some (_, data) =>
          match parseTreeEntries data with
          | .error e => .error e
          | .ok entries => .ok (entries.map (renderEntry nameOnly))

/-- Tree entry as accumulated by `writeTree`: mode, name and hex hash. -/
structure WTreeEntry where
  mode : List Nat
  name : List Nat
  hash : List Nat
deriving DecidableEq, Repr

/-- Mode chosen for a regular file in `writeTree`: `"100755"` when the file
metadata is available and has an execute bit (`info.Mode()&0111 != 0`), else
`"100644"`; a failed metadata call (`entry.Info()` returning an error,
modelled as `none`) silently keeps `"100644"`. -/
def fileEntryMode : Option Nat → List Nat
  | some m => if m &&& 73 ≠ 0 then str2bytes "100755" else str2bytes "100644"
  | none => str2bytes "100644"

/-- Name order established by the `sort.Slice` call of `writeTree`, whose
comparator is Go's `<` on the names. -/
def entryNameLe (a b : WTreeEntry) : Bool :=
  ! bytesLt b.name a.name

/-- The `sort.Slice(treeEntries, ...)` step of `writeTree`. -/
def sortEntries (es : List WTreeEntry) : List WTreeEntry :=
  es.mergeSort entryNameLe

/-- The serialization loop of `writeTree`: for each entry in order, the mode,
a space, the name, a NUL and the hash decoded from hex to 20 raw bytes
(`hex.DecodeString` failure is the only error). -/
def serializeEntries : List WTreeEntry → Except GErr (List Nat)
  | [] => .ok []
  | e :: es =>
    match decodeHexPairs e.hash with
    | none => .error .hexErr
    | some hb =>
      match serializeEntries es with
      | .error err => .error err
      | .ok rest => .ok (e.mode ++ 32 :: (e.name ++ 0 :: (hb ++ rest)))

/-- Directory tree as seen by `writeTree` through `os.ReadDir`: a file
carries its content and the result of `entry.Info()` (`none` models a
metadata error, `some m` the file mode bits); a directory carries its named
children in the order the filesystem happens to list them. -/
inductive FSNode where
  | file (content : List Nat) (infoMode : Option Nat)
  | dir (children : List (List Nat × FSNode))
deriving Repr

mutual

/-- The `writeTree` function of the source: list the children, accumulate the
entries, sort them by name, serialize and store the result as a `"tree"`
object.  Called on a non-directory, `os.ReadDir` fails. -/
def writeTree (compress : List Nat → List Nat) (node : FSNode) (st : Store) :
    Except GErr (List Nat × Store) :=
  match node with
  | .file _ _ => .error .notDirectory
  | .dir cs =>
    match collectEntries compress cs st with
    | .error e => .error e
    | .ok (es, st1) =>
      match serializeEntries (sortEntries es) with
      | .error e => .error e
      | .ok payload => .ok (writeObject compress (str2bytes "tree") payload st1)
termination_by sizeOf node
decreasing_by
  all_goals simp_wf

/-- The child loop of `writeTree`: skip the `.git` entry, recurse into
subdirectories with mode `"40000"`, and store each regular file as a blob
with the mode chosen by `fileEntryMode`. -/
def collectEntries (compress : List Nat → List Nat)
    (cs : List (List Nat × FSNode)) (st : Store) :
    Except GErr (List WTreeEntry × Store) :=
  match cs with
  | [] => .ok ([], st)
  | (n, node) :: rest =>
    if n = str2bytes ".git" then collectEntries compress rest st
    else
      match node with
      | .dir sub =>
        match writeTree compress (.dir sub) st with
        | .error e => .error e
        | .ok (h, st1) =>
          match collectEntries compress rest st1 with
          | .error e => .error e
          | .ok (es, st2) =>
            .ok ({ mode := str2bytes "40000", name := n, hash := h } :: es, st2)
      | .file content info =>
        let r := writeObject compress (str2bytes "blob") content st
        match collectEntries compress rest r.2 with
        | .error e => .error e
        | .ok (es, st2) =>
          .ok ({ mode := fileEntryMode info, name := n, hash := r.1 } :: es, st2)
termination_by sizeOf cs
decreasing_by
  all_goals simp_wf
  all_goals omega

end

/-- Outcome of the `ls-tree` argument handling in `main`: the usage error
when fewer than three argv entries are present, a Go index-out-of-range
runtime panic, or a parsed (nameOnly, hash) pair. -/
inductive ArgsOutcome where
  | usage
  | idxOutOfRange
  | run (nameOnly : Bool) (hash : String)
deriving DecidableEq, Repr

/-- The `ls-tree` argument handling of `main`: after checking only
`len(os.Args) < 3`, it reads `os.Args[2]` and, when that equals
`--name-only`, unconditionally indexes `os.Args[3]`; an out-of-range index
is a runtime panic. -/
def lsTreeArgs (args : List String) : ArgsOutcome :=
  if args.length < 3 then .usage
  else
    match args[2]? with
    | none => .idxOutOfRange
    | some a2 =>
      if a2 = "--name-only" then
        match args[3]? with
        | none => .idxOutOfRange
        | some h => .run true h
      else .run false a2

/-- Modelled from the spec: the tree-payload grammar of section 4.4 — a
concatenation of entries, each a space-free mode, a space, a NUL-free name,
a NUL and a 20-byte raw address. -/
inductive TreeGrammar : List Nat → Prop where
  | nil : TreeGrammar []
  | cons (mode name h rest : List Nat) : 32 ∉ mode → 0 ∉ name → h.length = 20 →
      TreeGrammar rest → TreeGrammar (mode ++ 32 :: (name ++ 0 :: (h ++ rest)))

/-- Modelled from the spec: `decimalLength` is the byte count rendered in
base-10 ASCII with no leading zeros, `0` rendering as `"0"` (section 4.3). -/
def decimalLengthSpec (d : List Nat) (n : Nat) : Prop :=
  (n = 0 ∧ d = [48]) ∨
    (n ≠ 0 ∧ (∀ x ∈ d, 48 ≤ x ∧ x ≤ 57) ∧ d.head? ≠ some 48 ∧ decimalVal d = n)

/-- Lowercase hex digit char codes, the alphabet `toHexBytes` emits. -/
def isLowHexCode (c : Nat) : Bool :=
  (48 ≤ c && c ≤ 57) || (97 ≤ c && c ≤ 102)


/-- Modelled from the spec: the parsed display form of a tree entry written
with mode, name and hex hash — the type comes from the mode map and the hash
is carried over (section 4.4, section 4.6). -/
def enrich (e : WTreeEntry) : LsEntry :=
  { mode := e.mode, type := gitModesLookup e.mode, hash := e.hash, name := e.name }

/-- Well-formedness of a tree entry for serialization round-trips: a
space-free mode, a NUL-free name, and a 40-character lowercase-hex hash. -/
def wfEntry (e : WTreeEntry) : Prop :=
  32 ∉ e.mode ∧ 0 ∉ e.name ∧ e.hash.length = 40 ∧ e.hash.all isLowHexCode = true

/-- A fixed well-formed 40-character address used by the concrete scenarios. -/
def sampleAddr : List Nat :=
  str2bytes "0000000000000000000000000000000000000000"

/-- Serialized tree payload with entries (100644, a.txt, h1) then
(40000, sub, h2), in the entry format of section 4.4. -/
def twoEntryPayload (h1 h2 : List Nat) : List Nat :=
  str2bytes "100644" ++ 32 :: (str2bytes "a.txt" ++ 0 ::
    (h1 ++ (str2bytes "40000" ++ 32 :: (str2bytes "sub" ++ 0 :: (h2 ++ [])))))

/-- Entry named "b" with a regular-file mode and the all-zero address. -/
def entryNamedB : WTreeEntry :=
  { mode := str2bytes "100644", name := str2bytes "b",
    hash := str2bytes "0000000000000000000000000000000000000000" }

/-- Entry named "a" with a regular-file mode and the all-zero address. -/
def entryNamedA : WTreeEntry :=
  { mode := str2bytes "100644", name := str2bytes "a",
    hash := str2bytes "0000000000000000000000000000000000000000" }

theorem splitAtByte_decomp {b : Nat} {l pre post : List Nat}
    (h : splitAtByte b l = some (pre, post)) :
    l = pre ++ b :: post ∧ b ∉ pre := by
  induction l generalizing pre post with
  | nil => simp [splitAtByte] at h
  | cons x xs ih =>
    by_cases hx : x = b
    · simp only [splitAtByte, if_pos hx, Option.some.injEq, Prod.mk.injEq] at h
      subst hx
      rw [← h.1, ← h.2]
      simp
    · simp only [splitAtByte, if_neg hx] at h
      cases hs : splitAtByte b xs with
      | none => rw [hs] at h; exact absurd h (by simp)
      | some pr =>
        obtain ⟨pre', post'⟩ := pr
        rw [hs] at h
        simp only [Option.some.injEq, Prod.mk.injEq] at h
        obtain ⟨hpre, hpost⟩ := h
        obtain ⟨hxs, hnot⟩ := ih hs
        subst hpost
        rw [← hpre]
        constructor
        · rw [hxs]; simp
        · intro hmem
          rcases List.mem_cons.mp hmem with h' | h'
          · exact hx h'.symm
          · exact hnot h'

theorem splitAtByte_append {b : Nat} {pre : List Nat} (post : List Nat)
    (hnot : b ∉ pre) : splitAtByte b (pre ++ b :: post) = some (pre, post) := by
  induction pre with
  | nil => simp [splitAtByte]
  | cons x xs ih =>
    have hx : x ≠ b := fun h => hnot (h ▸ List.mem_cons_self x xs)
    have hxs : b ∉ xs := fun h => hnot (List.mem_cons_of_mem x h)
    simp only [List.cons_append, splitAtByte, if_neg hx, List.append_eq, ih hxs]

theorem splitAtByte_none {b : Nat} {l : List Nat} (hnot : b ∉ l) :
    splitAtByte b l = none := by
  induction l with
  | nil => rfl
  | cons x xs ih =>
    have hx : x ≠ b := fun h => hnot (h ▸ List.mem_cons_self x xs)
    have hxs : b ∉ xs := fun h => hnot (List.mem_cons_of_mem x h)
    simp only [splitAtByte, if_neg hx, ih hxs]

theorem findPath_insertPath (st : Store) (p : ObjPath) (v : List Nat) :
    findPath (insertPath st p v) p = some v := by
  simp [insertPath, findPath]

theorem filter_ne_idem (st : Store) (p : ObjPath) :
    (st.filter (fun e => decide (e.1 ≠ p))).filter (fun e => decide (e.1 ≠ p))
      = st.filter (fun e => decide (e.1 ≠ p)) := by
  induction st with
  | nil => rfl
  | cons x xs ih =>
    by_cases hx : x.1 = p
    · simp [List.filter, hx, ih]
    · simp [List.filter, hx, ih]

theorem insertPath_idem (st : Store) (p : ObjPath) (v : List Nat) :
    insertPath (insertPath st p v) p v = insertPath st p v := by
  simp only [insertPath, List.filter_cons]
  simp [filter_ne_idem]

theorem digitsGo_eq : ∀ n fuel : Nat, n ≤ fuel →
    digitsGo fuel n = (Nat.digits 10 n).map (fun d => d + 48) := by
  intro n
  induction n using Nat.strong_induction_on with
  | _ n ih =>
    intro fuel hle
    match n, fuel with
    | 0, _ => simp [digitsGo]
    | m + 1, 0 => omega
    | m + 1, f + 1 =>
      have hlt : (m + 1) / 10 < m + 1 := Nat.div_lt_self (by omega) (by omega)
      have hf : (m + 1) / 10 ≤ f := by omega
      rw [digitsGo, ih _ hlt _ hf,
        Nat.digits_def' (show (1 : Nat) < 10 by norm_num) (show 0 < m + 1 by omega)]
      simp

theorem decimalAscii_eq (n : Nat) :
    decimalAscii n =
      if n = 0 then [48] else ((Nat.digits 10 n).map (fun d => d + 48)).reverse := by
  by_cases h : n = 0
  · simp [decimalAscii, h]
  · simp [decimalAscii, h, digitsGo_eq n n le_rfl]

theorem decimalAscii_range {n x : Nat} (hx : x ∈ decimalAscii n) :
    48 ≤ x ∧ x ≤ 57 := by
  rw [decimalAscii_eq] at hx
  by_cases h : n = 0
  · simp [h] at hx
    omega
  · simp [h] at hx
    obtain ⟨d, hd, rfl⟩ := hx
    have := Nat.digits_lt_base (by norm_num) hd
    omega

theorem zero_not_mem_decimalAscii (n : Nat) : 0 ∉ decimalAscii n := by
  intro h
  have := decimalAscii_range h
  omega

theorem space_not_mem_decimalAscii (n : Nat) : 32 ∉ decimalAscii n := by
  intro h
  have := decimalAscii_range h
  omega

theorem decimalAscii_head {n : Nat} (hn : n ≠ 0) :
    (decimalAscii n).head? ≠ some 48 := by
  have hnil : Nat.digits 10 n ≠ [] := Nat.digits_ne_nil_iff_ne_zero.mpr hn
  rw [decimalAscii_eq, if_neg hn, List.head?_reverse, List.getLast?_map,
    List.getLast?_eq_getLast _ hnil]
  have hz := Nat.getLast_digit_ne_zero 10 hn
  simp only [Option.map_some', ne_eq, Option.some.injEq]
  omega

theorem foldr_eq_ofDigits (l : List Nat) :
    List.foldr (fun d acc => acc * 10 + d) 0 l = Nat.ofDigits 10 l := by
  induction l with
  | nil => simp [Nat.ofDigits_nil]
  | cons d ds ih => simp [Nat.ofDigits_cons, ih]; ring

theorem decimalVal_decimalAscii (n : Nat) : decimalVal (decimalAscii n) = n := by
  rw [decimalAscii_eq]
  by_cases h : n = 0
  · simp [h, decimalVal]
  · rw [if_neg h]
    unfold decimalVal
    rw [List.foldl_reverse]
    have : ∀ l : List Nat,
        List.foldr (fun x y => y * 10 + (x - 48)) 0 (l.map (fun d => d + 48))
          = List.foldr (fun d acc => acc * 10 + d) 0 l := by
      intro l
      induction l with
      | nil => rfl
      | cons d ds ih => simp [ih]
    rw [this, foldr_eq_ofDigits]
    exact_mod_cast Nat.ofDigits_digits 10 n

theorem beBytes_length (k n : Nat) : (beBytes k n).length = k := by
  induction k generalizing n with
  | zero => rfl
  | succ k ih => simp [beBytes, ih]

theorem beBytes_lt (k n : Nat) : ∀ x ∈ beBytes k n, x < 256 := by
  induction k generalizing n with
  | zero => simp [beBytes]
  | succ k ih =>
    intro x hx
    simp only [beBytes, List.mem_append, List.mem_singleton] at hx
    rcases hx with h | h
    · exact ih _ x h
    · omega

theorem sha1_length (msg : List Nat) : (sha1 msg).length = 20 := by
  unfold sha1
  simp [beBytes_length]

theorem sha1_lt (msg : List Nat) : ∀ x ∈ sha1 msg, x < 256 := by
  unfold sha1
  intro x hx
  simp only [List.mem_append] at hx
  rcases hx with ((((h | h) | h) | h) | h) <;> exact beBytes_lt _ _ x h

theorem toHexBytes_length (l : List Nat) : (toHexBytes l).length = 2 * l.length := by
  induction l with
  | nil => rfl
  | cons x xs ih => simp [toHexBytes] at ih ⊢; omega

theorem splitNul_envelope {kind : List Nat} (p : List Nat) (hk : 0 ∉ kind) :
    splitAtByte 0 (envelope kind p) =
      some (kind ++ 32 :: decimalAscii p.length, p) := by
  have hassoc : envelope kind p = (kind ++ 32 :: decimalAscii p.length) ++ 0 :: p := by
    simp [envelope]
  rw [hassoc]
  apply splitAtByte_append
  intro hmem
  rcases List.mem_append.mp hmem with h | h
  · exact hk h
  · rcases List.mem_cons.mp h with h | h
    · omega
    · exact zero_not_mem_decimalAscii _ h

theorem splitSpace_header {kind : List Nat} (d : List Nat) (hk : 32 ∉ kind) :
    splitAtByte 32 (kind ++ 32 :: d) = some (kind, d) :=
  splitAtByte_append d hk

theorem hexVal_hexDigitCode : ∀ v : Nat, v < 16 → hexVal (hexDigitCode v) = some v := by
  decide

theorem decodeHexPairs_toHexBytes (l : List Nat) (hl : ∀ x ∈ l, x < 256) :
    decodeHexPairs (toHexBytes l) = some l := by
  induction l with
  | nil => rfl
  | cons b bs ih =>
    have hb : b < 256 := hl b (List.mem_cons_self b bs)
    have hbs : ∀ x ∈ bs, x < 256 := fun x hx => hl x (List.mem_cons_of_mem b hx)
    have h1 : b / 16 < 16 := by omega
    have h2 : b % 16 < 16 := by omega
    have hstep : toHexBytes (b :: bs)
        = hexDigitCode (b / 16) :: hexDigitCode (b % 16) :: toHexBytes bs := rfl
    rw [hstep]
    simp only [decodeHexPairs, hexVal_hexDigitCode _ h1, hexVal_hexDigitCode _ h2, ih hbs]
    have : b / 16 * 16 + b % 16 = b := by omega
    simp [this]

theorem parseGo_succ_ne (fuel : Nat) {data : List Nat} (hne : data ≠ []) :
    parseGo (fuel + 1) data =
      match splitAtByte 32 data with
      | none => .error .missingMode
      | some (mode, rest1) =>
        match splitAtByte 0 rest1 with
        | none => .error .missingNameTerm
        | some (name, rest2) =>
          if rest2.length < 20 then .error .incompleteHash
          else
            match parseGo fuel (rest2.drop 20) with
            | .error e => .error e
            | .ok es =>
              .ok ({ mode := mode, type := gitModesLookup mode,
                     hash := toHexBytes (rest2.take 20), name := name } :: es) := by
  cases data with
  | nil => exact absurd rfl hne
  | cons x xs => rfl

theorem parseGo_fuel : ∀ f1 data f2, data.length ≤ f1 → data.length ≤ f2 →
    parseGo f1 data = parseGo f2 data := by
  intro f1
  induction f1 with
  | zero =>
    intro data f2 h1 h2
    have hd : data = [] := List.length_eq_zero.mp (by omega)
    subst hd
    cases f2 <;> rfl
  | succ a ih =>
    intro data f2 h1 h2
    cases data with
    | nil => cases f2 <;> rfl
    | cons x xs =>
      cases f2 with
      | zero => simp at h2
      | succ b =>
        rw [parseGo_succ_ne a (by simp), parseGo_succ_ne b (by simp)]
        cases hs : splitAtByte 32 (x :: xs) with
        | none => rfl
        | some pr =>
          obtain ⟨mode, rest1⟩ := pr
          obtain ⟨hdata, -⟩ := splitAtByte_decomp hs
          cases hs2 : splitAtByte 0 rest1 with
          | none => simp only [hs2]
          | some pr2 =>
            obtain ⟨name, rest2⟩ := pr2
            obtain ⟨hrest1, -⟩ := splitAtByte_decomp hs2
            simp only [hs2]
            by_cases hlen : rest2.length < 20
            · simp only [if_pos hlen]
            · have hge : 20 ≤ rest2.length := by omega
              have hL : xs.length + 1 = mode.length + (name.length + (rest2.length + 1) + 1) := by
                have hc := congrArg List.length hdata
                rw [hrest1] at hc
                simpa using hc
              have hxa : xs.length + 1 ≤ a + 1 := by simpa using h1
              have hxb : xs.length + 1 ≤ b + 1 := by simpa using h2
              have hdk : (rest2.drop 20).length ≤ a := by
                rw [List.length_drop]
                omega
              have hdk2 : (rest2.drop 20).length ≤ b := by
                rw [List.length_drop]
                omega
              simp only [if_neg hlen, ih (rest2.drop 20) b hdk hdk2]

theorem parseTreeEntries_nil : parseTreeEntries [] = .ok [] := rfl

theorem parseTreeEntries_entry {mode name h : List Nat} (rest : List Nat)
    (h32 : 32 ∉ mode) (h0 : 0 ∉ name) (hlen : h.length = 20) :
    parseTreeEntries (mode ++ 32 :: (name ++ 0 :: (h ++ rest))) =
      match parseTreeEntries rest with
      | .error e => .error e
      | .ok es => .ok ({ mode := mode, type := gitModesLookup mode,
                         hash := toHexBytes h, name := name } :: es) := by
  have hne : mode ++ 32 :: (name ++ 0 :: (h ++ rest)) ≠ [] := by
    cases mode <;> simp
  have hLpos : 0 < (mode ++ 32 :: (name ++ 0 :: (h ++ rest))).length := by
    simp
  have hfuel : (mode ++ 32 :: (name ++ 0 :: (h ++ rest))).length
      = ((mode ++ 32 :: (name ++ 0 :: (h ++ rest))).length - 1) + 1 := by omega
  have hlen2 : ¬ ((h ++ rest).length < 20) := by simp [hlen]
  have htake : (h ++ rest).take 20 = h := by
    rw [← hlen]; exact List.take_left h rest
  have hdrop : (h ++ rest).drop 20 = rest := by
    rw [← hlen]; exact List.drop_left h rest
  have hrfuel : rest.length
      ≤ (mode ++ 32 :: (name ++ 0 :: (h ++ rest))).length - 1 := by
    simp [hlen]
    omega
  show parseGo (mode ++ 32 :: (name ++ 0 :: (h ++ rest))).length
      (mode ++ 32 :: (name ++ 0 :: (h ++ rest))) = _
  rw [hfuel, parseGo_succ_ne _ hne]
  simp only [splitAtByte_append _ h32]
  simp only [splitAtByte_append _ h0]
  simp only [if_neg hlen2, htake, hdrop,
    parseGo_fuel _ rest rest.length hrfuel le_rfl]
  rfl

theorem parseTreeEntries_noSpace {data : List Nat} (hne : data ≠ [])
    (h32 : 32 ∉ data) : parseTreeEntries data = .error .missingMode := by
  cases data with
  | nil => exact absurd rfl hne
  | cons x xs =>
    show parseGo (xs.length + 1) (x :: xs) = _
    rw [parseGo_succ_ne _ (by simp), splitAtByte_none h32]

theorem parseTreeEntries_noNul {mode rest1 : List Nat} (h32 : 32 ∉ mode)
    (h0 : 0 ∉ rest1) :
    parseTreeEntries (mode ++ 32 :: rest1) = .error .missingNameTerm := by
  have hne : mode ++ 32 :: rest1 ≠ [] := by cases mode <;> simp
  have hfuel : (mode ++ 32 :: rest1).length
      = ((mode ++ 32 :: rest1).length - 1) + 1 := by simp; omega
  show parseGo (mode ++ 32 :: rest1).length (mode ++ 32 :: rest1) = _
  rw [hfuel, parseGo_succ_ne _ hne]
  simp only [splitAtByte_append _ h32]
  simp only [splitAtByte_none h0]

theorem parseTreeEntries_short {mode name rest2 : List Nat} (h32 : 32 ∉ mode)
    (h0 : 0 ∉ name) (hshort : rest2.length < 20) :
    parseTreeEntries (mode ++ 32 :: (name ++ 0 :: rest2)) = .error .incompleteHash := by
  have hne : mode ++ 32 :: (name ++ 0 :: rest2) ≠ [] := by cases mode <;> simp
  have hfuel : (mode ++ 32 :: (name ++ 0 :: rest2)).length
      = ((mode ++ 32 :: (name ++ 0 :: rest2)).length - 1) + 1 := by simp; omega
  show parseGo (mode ++ 32 :: (name ++ 0 :: rest2)).length
      (mode ++ 32 :: (name ++ 0 :: rest2)) = _
  rw [hfuel, parseGo_succ_ne _ hne]
  simp only [splitAtByte_append _ h32]
  simp only [splitAtByte_append _ h0]
  simp only [if_pos hshort]

theorem bytesLt_asymm : ∀ a b, bytesLt a b = true → bytesLt b a = false := by
  intro a
  induction a with
  | nil =>
    intro b h
    cases b with
    | nil => simp [bytesLt] at h
    | cons y ys => simp [bytesLt]
  | cons x xs ih =>
    intro b h
    cases b with
    | nil => simp [bytesLt] at h
    | cons y ys =>
      simp only [bytesLt] at h ⊢
      by_cases h1 : x < y
      · have h2 : ¬ y < x := by omega
        simp [h1, h2]
      · by_cases h2 : y < x
        · simp [h1, h2] at h
        · have h3 := ih ys (by simpa [h1, h2] using h)
          simp [h1, h2, h3]

theorem bytesLt_cotrans : ∀ c a b, bytesLt c a = true →
    bytesLt c b = true ∨ bytesLt b a = true := by
  intro c
  induction c with
  | nil =>
    intro a b hca
    match a, b with
    | [], _ => simp [bytesLt] at hca
    | x :: xs, [] => right; simp [bytesLt]
    | x :: xs, y :: ys => left; simp [bytesLt]
  | cons z zs ih =>
    intro a b hca
    match a, b with
    | [], _ => simp [bytesLt] at hca
    | x :: xs, [] => right; simp [bytesLt]
    | x :: xs, y :: ys =>
      by_cases hzx : z < x
      · by_cases hzy : z < y
        · left; simp [bytesLt, hzy]
        · right
          have hyx : y < x := by omega
          simp [bytesLt, hyx]
      · by_cases hxz : x < z
        · simp [bytesLt, hzx, hxz] at hca
        · have hzs : bytesLt zs xs = true := by simpa [bytesLt, hzx, hxz] using hca
          by_cases hzy : z < y
          · left; simp [bytesLt, hzy]
          · by_cases hyz : y < z
            · right
              have hyx : y < x := by omega
              simp [bytesLt, hyx]
            · rcases ih xs ys hzs with h | h
              · left; simp [bytesLt, hzy, hyz, h]
              · right
                have hyx : ¬ y < x := by omega
                have hxy : ¬ x < y := by omega
                simp [bytesLt, hyx, hxy, h]

theorem bytesLe_trans : ∀ a b c, bytesLe a b = true → bytesLe b c = true →
    bytesLe a c = true := by
  intro a b c hab hbc
  simp only [bytesLe, Bool.not_eq_true'] at hab hbc ⊢
  by_cases hca : bytesLt c a = true
  · rcases bytesLt_cotrans c a b hca with h | h
    · rw [hbc] at h; exact absurd h (by simp)
    · rw [hab] at h; exact absurd h (by simp)
  · simpa using hca

theorem bytesLe_total : ∀ a b, (bytesLe a b || bytesLe b a) = true := by
  intro a b
  simp only [bytesLe, Bool.or_eq_true, Bool.not_eq_true']
  by_cases h : bytesLt b a = true
  · right
    exact bytesLt_asymm b a h
  · left
    simpa using h

theorem entryNameLe_trans : ∀ a b c : WTreeEntry, entryNameLe a b = true →
    entryNameLe b c = true → entryNameLe a c = true := by
  intro a b c hab hbc
  exact bytesLe_trans a.name b.name c.name hab hbc

theorem entryNameLe_total : ∀ a b : WTreeEntry,
    (entryNameLe a b || entryNameLe b a) = true := by
  intro a b
  exact bytesLe_total a.name b.name

theorem sortEntries_pairwise (es : List WTreeEntry) :
    (sortEntries es).Pairwise (fun a b => entryNameLe a b = true) :=
  List.sorted_mergeSort entryNameLe_trans entryNameLe_total es

theorem lowHex_elim {c : Nat} (hc : isLowHexCode c = true) :
    ∃ v, v < 16 ∧ hexVal c = some v ∧ hexDigitCode v = c := by
  simp only [isLowHexCode, Bool.or_eq_true, Bool.and_eq_true, decide_eq_true_eq] at hc
  rcases hc with ⟨h1, h2⟩ | ⟨h1, h2⟩
  · refine ⟨c - 48, by omega, ?_, ?_⟩
    · simp only [hexVal, if_pos (And.intro h1 h2)]
    · simp only [hexDigitCode, if_pos (show c - 48 < 10 by omega)]
      omega
  · refine ⟨c - 87, by omega, ?_, ?_⟩
    · have hno : ¬(48 ≤ c ∧ c ≤ 57) := by omega
      simp only [hexVal, if_neg hno, if_pos (And.intro h1 h2)]
    · simp only [hexDigitCode, if_neg (show ¬(c - 87 < 10) by omega)]
      omega

theorem hexRoundTrip : ∀ fuel l, l.length ≤ fuel → l.all isLowHexCode = true →
    l.length % 2 = 0 →
    ∃ b, decodeHexPairs l = some b ∧ toHexBytes b = l ∧ l.length = 2 * b.length := by
  intro fuel
  induction fuel with
  | zero =>
    intro l hl _ _
    have : l = [] := List.length_eq_zero.mp (by omega)
    exact ⟨[], by simp [this, decodeHexPairs, toHexBytes]⟩
  | succ fuel ih =>
    intro l hl hhex hpar
    match l with
    | [] => exact ⟨[], by simp [decodeHexPairs, toHexBytes]⟩
    | [c] => simp at hpar
    | c1 :: c2 :: rest =>
      simp only [List.all_cons, Bool.and_eq_true] at hhex
      obtain ⟨hc1, hc2, hrest⟩ := hhex
      obtain ⟨v1, hv1lt, hv1, hd1⟩ := lowHex_elim hc1
      obtain ⟨v2, hv2lt, hv2, hd2⟩ := lowHex_elim hc2
      have hlen : rest.length ≤ fuel := by simp at hl; omega
      have hpar' : rest.length % 2 = 0 := by simp at hpar; omega
      obtain ⟨bs, hdec, henc, hlen2⟩ := ih rest hlen hrest hpar'
      refine ⟨(v1 * 16 + v2) :: bs, ?_, ?_, ?_⟩
      · simp only [decodeHexPairs, hv1, hv2, hdec]
      · have hstep : toHexBytes ((v1 * 16 + v2) :: bs)
            = hexDigitCode ((v1 * 16 + v2) / 16)
              :: hexDigitCode ((v1 * 16 + v2) % 16) :: toHexBytes bs := rfl
        rw [hstep, show (v1 * 16 + v2) / 16 = v1 by omega,
          show (v1 * 16 + v2) % 16 = v2 by omega, hd1, hd2, henc]
      · simp at hlen2 ⊢
        omega


/-- Claim C2: `writeObject` builds the envelope as the kind, one space, the
payload byte count in base-10 ASCII with no leading zeros (0 rendering as
"0"), a NUL, then the payload; the returned address is the 40-hex-character
digest of that envelope, and the compressed envelope is stored at the path
`{hex[0:2]}/{hex[2:40]}` under the objects root. -/
theorem C2_writeObject_envelope_path (compress : List Nat → List Nat)
    (k p : List Nat) (st : Store) :
    writeObject compress k p st
        = (toHexBytes (sha1 (envelope k p)),
           insertPath st
             ((toHexBytes (sha1 (envelope k p))).take 2,
              (toHexBytes (sha1 (envelope k p))).drop 2)
             (compress (envelope k p)))
      ∧ envelope k p = k ++ 32 :: (decimalAscii p.length ++ 0 :: p)
      ∧ decimalLengthSpec (decimalAscii p.length) p.length
      ∧ (toHexBytes (sha1 (envelope k p))).length = 40 := by
  refine ⟨rfl, rfl, ?_, ?_⟩
  · by_cases hz : p.length = 0
    · left
      exact ⟨hz, by rw [hz]; rfl⟩
    · right
      exact ⟨hz, fun x hx => decimalAscii_range hx, decimalAscii_head hz,
        decimalVal_decimalAscii _⟩
  · rw [toHexBytes_length, sha1_length]

/-- Claim C1: for every NUL- and space-free kind tag and every payload,
reading back the object produced by `writeObject` returns exactly that kind
and payload; the source's `cat-file` pipeline returns the payload, and the
spec-modelled `readObject` also recovers the kind. -/
theorem C1_read_write_roundtrip (compress : List Nat → List Nat)
    (decompress : List Nat → Option (List Nat)) (k p : List Nat) (st : Store)
    (hinv : ∀ x, decompress (compress x) = some x)
    (hk0 : 0 ∉ k) (hk32 : 32 ∉ k) :
    readObject decompress (writeObject compress k p st).2
        (writeObject compress k p st).1 = .ok (k, p)
      ∧ catFile decompress (writeObject compress k p st).2
        (writeObject compress k p st).1 = .ok p := by
  have hlen : (toHexBytes (sha1 (envelope k p))).length = 40 := by
    rw [toHexBytes_length, sha1_length]
  have hw1 : (writeObject compress k p st).1 = toHexBytes (sha1 (envelope k p)) := rfl
  have hw2 : (writeObject compress k p st).2
      = insertPath st (objectsPath (toHexBytes (sha1 (envelope k p))))
          (compress (envelope k p)) := rfl
  have hfind := findPath_insertPath st
    (objectsPath (toHexBytes (sha1 (envelope k p)))) (compress (envelope k p))
  have hnot : ¬ ((toHexBytes (sha1 (envelope k p))).length < 40) := by omega
  constructor
  · rw [hw1, hw2]
    simp only [readObject, if_neg hnot, hfind, hinv, splitNul_envelope p hk0,
      splitSpace_header _ hk32]
  · rw [hw1, hw2]
    simp only [catFile, if_neg hnot, hfind, hinv, splitNul_envelope p hk0]

/-- Witness for C1 at kind `"blob"`, payload `"hi"`, the identity compressor
and the empty store. -/
theorem C1_read_write_roundtrip_witness :
    readObject some (writeObject id (str2bytes "blob") (str2bytes "hi") []).2
        (writeObject id (str2bytes "blob") (str2bytes "hi") []).1
        = .ok (str2bytes "blob", str2bytes "hi")
      ∧ catFile some (writeObject id (str2bytes "blob") (str2bytes "hi") []).2
        (writeObject id (str2bytes "blob") (str2bytes "hi") []).1
        = .ok (str2bytes "hi") :=
  C1_read_write_roundtrip id some (str2bytes "blob") (str2bytes "hi") []
    (fun _ => rfl) (by decide) (by decide)

/-- Claim C8: writing the same kind and payload twice yields the same address
both times, the second call does not error, and the store after the second
write is exactly the store after the first: the repeated write is a no-op. -/
theorem C8_write_deterministic_idempotent (compress : List Nat → List Nat)
    (k p : List Nat) (st : Store) :
    writeObject compress k p ((writeObject compress k p st).2)
      = writeObject compress k p st := by
  have h : writeObject compress k p ((writeObject compress k p st).2)
      = (toHexBytes (sha1 (envelope k p)),
         insertPath
           (insertPath st (objectsPath (toHexBytes (sha1 (envelope k p))))
             (compress (envelope k p)))
           (objectsPath (toHexBytes (sha1 (envelope k p))))
           (compress (envelope k p))) := rfl
  rw [h, insertPath_idem]
  rfl

/-- Claim C9: `ls-tree` invoked with exactly the three argv entries
`got ls-tree --name-only` passes the `len(os.Args) < 3` check and then
indexes `os.Args[3]`, which is out of range: a runtime panic, not a
structured error. -/
theorem C9_lsTree_nameOnly_without_hash_panics :
    3 ≤ (["got", "ls-tree", "--name-only"] : List String).length
      ∧ lsTreeArgs ["got", "ls-tree", "--name-only"] = .idxOutOfRange := by
  constructor
  · decide
  · rfl

/-- Counterexample for C5: a 41-character hash passes the `cat-file` length
check (`len < 40`) and a 40-character non-hex hash passes both length
checks, so both reach the disk lookup (object-not-found on an empty store)
instead of being rejected as invalid addresses. -/
theorem C5_no_hex_validation_cex :
    catFile some [] (str2bytes "00000000000000000000000000000000000000000")
        = .error .fileNotFound
      ∧ lsTree some [] false (str2bytes "zzzzzzzzzzzzzzzzzzzzzzzzzzzzzzzzzzzzzzzz")
        = .error .fileNotFound := by
  constructor
  · rfl
  · rfl

/-- Claim C5 amended: the only validation performed on a raw address string
is a length check — `cat-file` rejects exactly the strings shorter than 40
characters and `ls-tree` exactly those whose length is not 40; neither
checks hex characters, and a string passing the length check proceeds to the
disk lookup. -/
theorem C5_length_only_validation (d : List Nat → Option (List Nat))
    (st : Store) (h : List Nat) (nameOnly : Bool) :
    (h.length < 40 → catFile d st h = .error .invalidHash)
      ∧ (h.length ≠ 40 → lsTree d st nameOnly h = .error .invalidHash)
      ∧ (40 ≤ h.length → catFile d [] h = .error .fileNotFound)
      ∧ (h.length = 40 → lsTree d [] nameOnly h = .error .fileNotFound) := by
  refine ⟨?_, ?_, ?_, ?_⟩
  · intro hlt
    simp only [catFile, if_pos hlt]
  · intro hne
    simp only [lsTree, if_pos hne]
  · intro hge
    simp only [catFile, if_neg (show ¬ h.length < 40 by omega), findPath]
  · intro heq
    simp only [lsTree, if_neg (show ¬ h.length ≠ 40 by omega), findPath]

/-- Witness for C5 at a 39-character hash string. -/
theorem C5_length_only_validation_witness :
    catFile some [] (str2bytes "000000000000000000000000000000000000000")
        = .error .invalidHash
      ∧ lsTree some [] false (str2bytes "000000000000000000000000000000000000000")
        = .error .invalidHash :=
  ⟨(C5_length_only_validation some [] _ false).1 (by decide),
   (C5_length_only_validation some [] _ false).2.1 (by decide)⟩

set_option maxRecDepth 10000 in
/-- Counterexample for C4: the address the spec gives for
`write("blob", "hello\n")` has only 39 hex characters and is not the address
the code computes. -/
theorem C4_claimed_address_cex :
    (writeObject id (str2bytes "blob") (str2bytes "hello\n") []).1
      ≠ str2bytes "ce013625030ba8dba906f756967f9e9ca394464" := by
  decide

set_option maxRecDepth 10000 in
/-- Claim C4 amended: `write("blob", "hello\n")` returns the address
`ce013625030ba8dba906f756967f9e9ca394464a` (40 characters, ending in `a`),
and reading that address back yields kind `"blob"` and payload `"hello\n"`. -/
theorem C4_blob_scenario_fixed :
    (writeObject id (str2bytes "blob") (str2bytes "hello\n") []).1
        = str2bytes "ce013625030ba8dba906f756967f9e9ca394464a"
      ∧ readObject some (writeObject id (str2bytes "blob") (str2bytes "hello\n") []).2
          (str2bytes "ce013625030ba8dba906f756967f9e9ca394464a")
        = .ok (str2bytes "blob", str2bytes "hello\n") := by
  constructor
  · decide
  · rfl

theorem lsTree_twoEntry (h1 h2 : List Nat) (st : Store)
    (hl1 : h1.length = 20) (hl2 : h2.length = 20) :
    lsTree some (insertPath st (objectsPath sampleAddr)
        (envelope (str2bytes "tree") (twoEntryPayload h1 h2))) false sampleAddr
      = .ok [str2bytes "100644 blob " ++ (toHexBytes h1 ++ str2bytes " a.txt"),
             str2bytes "40000  " ++ (toHexBytes h2 ++ str2bytes " sub")] := by
  have hne : ¬ (sampleAddr.length ≠ 40) := by decide
  have hfind := findPath_insertPath st (objectsPath sampleAddr)
    (envelope (str2bytes "tree") (twoEntryPayload h1 h2))
  have hnul : splitAtByte 0 (envelope (str2bytes "tree") (twoEntryPayload h1 h2))
      = some (str2bytes "tree" ++ 32 :: decimalAscii (twoEntryPayload h1 h2).length,
              twoEntryPayload h1 h2) := splitNul_envelope _ (by decide)
  have hp2 : parseTreeEntries
      (str2bytes "40000" ++ 32 :: (str2bytes "sub" ++ 0 :: (h2 ++ [])))
      = .ok [{ mode := str2bytes "40000", type := gitModesLookup (str2bytes "40000"),
               hash := toHexBytes h2, name := str2bytes "sub" }] := by
    rw [parseTreeEntries_entry [] (by decide) (by decide) hl2, parseTreeEntries_nil]
  have hp1 : parseTreeEntries (twoEntryPayload h1 h2)
      = .ok [{ mode := str2bytes "100644", type := gitModesLookup (str2bytes "100644"),
               hash := toHexBytes h1, name := str2bytes "a.txt" },
             { mode := str2bytes "40000", type := gitModesLookup (str2bytes "40000"),
               hash := toHexBytes h2, name := str2bytes "sub" }] := by
    rw [show twoEntryPayload h1 h2
        = str2bytes "100644" ++ 32 :: (str2bytes "a.txt" ++ 0 ::
            (h1 ++ (str2bytes "40000" ++ 32 :: (str2bytes "sub" ++ 0 :: (h2 ++ [])))))
      from rfl, parseTreeEntries_entry _ (by decide) (by decide) hl1, hp2]
  simp only [lsTree, if_neg hne, hfind, hnul, hp1]
  rfl

/-- Counterexample for C3: on a tree with entries (100644, a.txt) and
(40000, sub), the second output line is not `40000 tree <addr> sub` — the
mode `40000` is not a key of the mode map (only `040000` is), so the type
label is empty. -/
theorem C3_mode_label_cex :
    lsTree some (insertPath [] (objectsPath sampleAddr)
        (envelope (str2bytes "tree")
          (twoEntryPayload (List.range 20) ((List.range 20).map (fun i => i + 20)))))
        false sampleAddr
      ≠ .ok [str2bytes "100644 blob 000102030405060708090a0b0c0d0e0f10111213 a.txt",
             str2bytes "40000 tree 1415161718191a1b1c1d1e1f2021222324252627 sub"] := by
  rw [lsTree_twoEntry _ _ [] (by decide) (by decide)]
  simp only [ne_eq, Except.ok.injEq]
  decide

/-- Claim C3 amended: under `nameOnly=false`, listing a tree with entries
(100644, a.txt, h1) and (40000, sub, h2) emits the line
`100644 blob <hex h1> a.txt` followed by `40000  <hex h2> sub`: the first
entry's type label comes from the mode map, while `40000` is not a key of
the map (the map holds `040000`), so its type label is the empty string
rather than a failure. -/
theorem C3_mode_based_listing_fixed (h1 h2 : List Nat) (st : Store)
    (hl1 : h1.length = 20) (hl2 : h2.length = 20) :
    lsTree some (insertPath st (objectsPath sampleAddr)
        (envelope (str2bytes "tree") (twoEntryPayload h1 h2))) false sampleAddr
      = .ok [str2bytes "100644 blob " ++ (toHexBytes h1 ++ str2bytes " a.txt"),
             str2bytes "40000  " ++ (toHexBytes h2 ++ str2bytes " sub")] :=
  lsTree_twoEntry h1 h2 st hl1 hl2

/-- Witness for C3 at two concrete 20-byte addresses. -/
theorem C3_mode_based_listing_witness :
    lsTree some (insertPath [] (objectsPath sampleAddr)
        (envelope (str2bytes "tree")
          (twoEntryPayload (List.replicate 20 5) (List.replicate 20 6))))
        false sampleAddr
      = .ok [str2bytes "100644 blob " ++ (toHexBytes (List.replicate 20 5) ++ str2bytes " a.txt"),
             str2bytes "40000  " ++ (toHexBytes (List.replicate 20 6) ++ str2bytes " sub")] :=
  C3_mode_based_listing_fixed (List.replicate 20 5) (List.replicate 20 6) []
    (by decide) (by decide)

theorem grammar_parse_ok : ∀ data, TreeGrammar data →
    (parseTreeEntries data).isOk = true := by
  intro data hg
  induction hg with
  | nil => rfl
  | cons mode name h rest h32 h0 hlen hg ih =>
    rw [parseTreeEntries_entry rest h32 h0 hlen]
    cases hp : parseTreeEntries rest with
    | error e => rw [hp] at ih; simp [Except.isOk, Except.toBool] at ih
    | ok es => simp [hp, Except.isOk, Except.toBool]

theorem parse_ok_grammar : ∀ fuel data, data.length ≤ fuel →
    (parseTreeEntries data).isOk = true → TreeGrammar data := by
  intro fuel
  induction fuel with
  | zero =>
    intro data hle _
    have hd : data = [] := List.length_eq_zero.mp (by omega)
    rw [hd]
    exact TreeGrammar.nil
  | succ f ih =>
    intro data hle hok
    cases data with
    | nil => exact TreeGrammar.nil
    | cons x xs =>
      have hunf : parseTreeEntries (x :: xs) = parseGo (xs.length + 1) (x :: xs) := rfl
      rw [hunf, parseGo_succ_ne _ (by simp)] at hok
      cases hs : splitAtByte 32 (x :: xs) with
      | none => rw [hs] at hok; simp [Except.isOk, Except.toBool] at hok
      | some pr =>
        obtain ⟨mode, rest1⟩ := pr
        obtain ⟨hdata, h32⟩ := splitAtByte_decomp hs
        simp only [hs] at hok
        cases hs2 : splitAtByte 0 rest1 with
        | none => simp only [hs2] at hok; simp [Except.isOk, Except.toBool] at hok
        | some pr2 =>
          obtain ⟨name, rest2⟩ := pr2
          obtain ⟨hrest1, h0⟩ := splitAtByte_decomp hs2
          simp only [hs2] at hok
          by_cases hlen : rest2.length < 20
          · rw [if_pos hlen] at hok
            simp [Except.isOk, Except.toBool] at hok
          · rw [if_neg hlen] at hok
            have hLd : (x :: xs).length
                = mode.length + (name.length + (rest2.length + 1) + 1) := by
              have hc := congrArg List.length hdata
              rw [hrest1] at hc
              simpa using hc
            have hdk : (rest2.drop 20).length ≤ f := by
              rw [List.length_drop]
              simp only [List.length_cons] at hle hLd
              omega
            have hdkx : (rest2.drop 20).length ≤ xs.length := by
              rw [List.length_drop]
              simp only [List.length_cons] at hLd
              omega
            have hfeq : parseGo xs.length (rest2.drop 20)
                = parseTreeEntries (rest2.drop 20) :=
              parseGo_fuel xs.length (rest2.drop 20) (rest2.drop 20).length hdkx le_rfl
            rw [hfeq] at hok
            cases hp : parseTreeEntries (rest2.drop 20) with
            | error e => simp only [hp] at hok; simp [Except.isOk, Except.toBool] at hok
            | ok es =>
              have hgr : TreeGrammar (rest2.drop 20) := by
                apply ih _ hdk
                rw [hp]
                rfl
              have hshape : x :: xs
                  = mode ++ 32 :: (name ++ 0 :: (rest2.take 20 ++ rest2.drop 20)) := by
                rw [hdata, hrest1, List.take_append_drop]
              rw [hshape]
              exact TreeGrammar.cons mode name (rest2.take 20) (rest2.drop 20) h32 h0
                (by rw [List.length_take]; omega) hgr

/-- Claim C6: tree payload decoding accepts the empty payload as the empty
entry list, succeeds exactly on payloads in the entry grammar, and while
entries remain it fails with a missing-mode error when no space exists, a
missing-name-terminator error when no NUL follows the space, and an
incomplete-hash error when fewer than 20 bytes remain after the NUL. -/
theorem C6_decode_error_conditions :
    parseTreeEntries [] = .ok []
      ∧ (∀ data, (parseTreeEntries data).isOk = true ↔ TreeGrammar data)
      ∧ (∀ data, data ≠ [] → 32 ∉ data →
          parseTreeEntries data = .error .missingMode)
      ∧ (∀ mode rest1, 32 ∉ mode → 0 ∉ rest1 →
          parseTreeEntries (mode ++ 32 :: rest1) = .error .missingNameTerm)
      ∧ (∀ mode name rest2, 32 ∉ mode → 0 ∉ name → rest2.length < 20 →
          parseTreeEntries (mode ++ 32 :: (name ++ 0 :: rest2))
            = .error .incompleteHash) := by
  refine ⟨parseTreeEntries_nil, ?_, ?_, ?_, ?_⟩
  · intro data
    exact ⟨parse_ok_grammar data.length data le_rfl, grammar_parse_ok data⟩
  · intro data hne h32
    exact parseTreeEntries_noSpace hne h32
  · intro mode rest1 h32 h0
    exact parseTreeEntries_noNul h32 h0
  · intro mode name rest2 h32 h0 hlt
    exact parseTreeEntries_short h32 h0 hlt

/-- Witness for C6: a one-entry payload is in the grammar (via a successful
parse), and a space-free nonempty payload fails with the missing-mode
error. -/
theorem C6_decode_error_conditions_witness :
    TreeGrammar (str2bytes "100644" ++ 32 ::
        (str2bytes "x" ++ 0 :: (List.replicate 20 7 ++ [])))
      ∧ parseTreeEntries [53] = .error .missingMode :=
  ⟨(C6_decode_error_conditions.2.1 _).mp (by decide),
   C6_decode_error_conditions.2.2.1 [53] (by decide) (by decide)⟩

theorem serialize_parse_roundtrip : ∀ es : List WTreeEntry, (∀ e ∈ es, wfEntry e) →
    ∃ pl, serializeEntries es = .ok pl
      ∧ parseTreeEntries pl = .ok (es.map enrich) := by
  intro es
  induction es with
  | nil => exact fun _ => ⟨[], rfl, parseTreeEntries_nil⟩
  | cons e es ih =>
    intro hwf
    obtain ⟨h32, h0, hlen40, hhex⟩ := hwf e (List.mem_cons_self e es)
    obtain ⟨pl, hser, hpar⟩ := ih (fun x hx => hwf x (List.mem_cons_of_mem e hx))
    obtain ⟨hb, hdec, henc, hlenr⟩ :=
      hexRoundTrip e.hash.length e.hash le_rfl hhex (by omega)
    have hb20 : hb.length = 20 := by omega
    refine ⟨e.mode ++ 32 :: (e.name ++ 0 :: (hb ++ pl)), ?_, ?_⟩
    · simp only [serializeEntries, hdec, hser]
    · rw [parseTreeEntries_entry pl h32 h0 hb20, hpar]
      simp [enrich, henc]

/-- Counterexample for C7: an entry sequence that is not sorted by name
(name "b" before name "a") is still preserved exactly by
decode-after-encode, so preservation does not require sortedness. -/
theorem C7_unsorted_preserved_cex :
    entryNameLe entryNamedB entryNamedA = false
      ∧ serializeEntries [entryNamedB, entryNamedA]
        = .ok (str2bytes "100644" ++ 32 :: (str2bytes "b" ++ 0 ::
            (List.replicate 20 0 ++ (str2bytes "100644" ++ 32 :: (str2bytes "a" ++ 0 ::
              (List.replicate 20 0 ++ []))))))
      ∧ parseTreeEntries (str2bytes "100644" ++ 32 :: (str2bytes "b" ++ 0 ::
            (List.replicate 20 0 ++ (str2bytes "100644" ++ 32 :: (str2bytes "a" ++ 0 ::
              (List.replicate 20 0 ++ []))))))
        = .ok ([entryNamedB, entryNamedA].map enrich) := by
  refine ⟨by decide, by decide, ?_⟩
  rw [parseTreeEntries_entry _ (by decide) (by decide) (by decide),
    parseTreeEntries_entry [] (by decide) (by decide) (by decide),
    parseTreeEntries_nil]
  decide

/-- Claim C7 amended: decode-after-encode preserves every well-formed entry
sequence (space-free modes, NUL-free names, 40-character lowercase hex
hashes) whether or not it is sorted; and the tree builder always serializes
its entry list sorted ascending by byte value of name — `writeTree` passes
the collected entries through the name sort before serializing, and the
sorted list is pairwise ordered for every input order. -/
theorem C7_codec_preservation_and_sorting :
    (∀ es : List WTreeEntry, (∀ e ∈ es, wfEntry e) →
        ∃ pl, serializeEntries es = .ok pl
          ∧ parseTreeEntries pl = .ok (es.map enrich))
      ∧ (∀ es : List WTreeEntry,
          (sortEntries es).Pairwise (fun a b => entryNameLe a b = true))
      ∧ (∀ compress cs st, writeTree compress (.dir cs) st
          = match collectEntries compress cs st with
            | .error e => .error e
            | .ok (es, st1) =>
              match serializeEntries (sortEntries es) with
              | .error e => .error e
              | .ok payload =>
                .ok (writeObject compress (str2bytes "tree") payload st1)) := by
  refine ⟨serialize_parse_roundtrip, sortEntries_pairwise, ?_⟩
  intro compress cs st
  rw [writeTree]

/-- Witness for C7 at a one-entry list. -/
theorem C7_codec_preservation_witness :
    ∃ pl, serializeEntries [entryNamedA] = .ok pl
      ∧ parseTreeEntries pl = .ok ([entryNamedA].map enrich) :=
  C7_codec_preservation_and_sorting.1 [entryNamedA] (by
    intro e he
    simp only [List.mem_singleton] at he
    subst he
    exact ⟨by decide, by decide, by decide, by decide⟩)

/-- Claim C10: when retrieving a regular file's metadata fails (`entry.Info()`
returns an error, modelled by `none`), `writeTree` silently records the entry
with mode `"100644"`, behaves exactly as for a file whose metadata reports no
execute bits, and does not return an error. -/
theorem C10_metadata_error_defaults_mode (n c : List Nat) (st : Store)
    (compress : List Nat → List Nat) (hn : n ≠ str2bytes ".git") :
    writeTree compress (.dir [(n, .file c none)]) st
        = writeTree compress (.dir [(n, .file c (some 0))]) st
      ∧ collectEntries compress [(n, .file c none)] st
        = .ok ([{ mode := str2bytes "100644", name := n,
                  hash := (writeObject compress (str2bytes "blob") c st).1 }],
               (writeObject compress (str2bytes "blob") c st).2)
      ∧ (writeTree compress (.dir [(n, .file c none)]) st).isOk = true := by
  have hnil : ∀ s : Store, collectEntries compress [] s = .ok ([], s) := by
    intro s
    rw [collectEntries]
  have hcol : ∀ info : Option Nat, collectEntries compress [(n, .file c info)] st
      = .ok ([{ mode := fileEntryMode info, name := n,
                hash := (writeObject compress (str2bytes "blob") c st).1 }],
             (writeObject compress (str2bytes "blob") c st).2) := by
    intro info
    rw [collectEntries, if_neg hn]
    simp only [hnil]
  have hmode : fileEntryMode none = fileEntryMode (some 0) := by decide
  have hhash : (writeObject compress (str2bytes "blob") c st).1
      = toHexBytes (sha1 (envelope (str2bytes "blob") c)) := rfl
  have hdec : decodeHexPairs (toHexBytes (sha1 (envelope (str2bytes "blob") c)))
      = some (sha1 (envelope (str2bytes "blob") c)) :=
    decodeHexPairs_toHexBytes _ (sha1_lt _)
  refine ⟨?_, ?_, ?_⟩
  · rw [writeTree, writeTree, hcol none, hcol (some 0), hmode]
  · exact hcol none
  · rw [writeTree, hcol none]
    simp only [sortEntries, List.mergeSort_singleton, serializeEntries, hhash, hdec,
      Except.isOk, Except.toBool]

/-- Witness for C10 at a concrete file entry named "f" with empty content. -/
theorem C10_metadata_error_defaults_mode_witness :
    writeTree id (.dir [(str2bytes "f", .file [] none)]) []
        = writeTree id (.dir [(str2bytes "f", .file [] (some 0))]) []
      ∧ collectEntries id [(str2bytes "f", .file [] none)] []
        = .ok ([{ mode := str2bytes "100644", name := str2bytes "f",
                  hash := (writeObject id (str2bytes "blob") [] []).1 }],
               (writeObject id (str2bytes "blob") [] []).2)
      ∧ (writeTree id (.dir [(str2bytes "f", .file [] none)]) []).isOk = true :=
  C10_metadata_error_defaults_mode (str2bytes "f") [] [] id (by decide)
